import Mathlib

/-!
Verification of the core logic of `piptime` (src/main.rs): champion
selection (`select_champion`, used via `find_pip`), anchor-window
computation (`pip_anchor_window`), the overlap resolver
(`versions_overlapping_window`) and the anchor-spec parser
(`parse_pip_spec`).

Embedding conventions:
* `DateTime<Utc>` instants become `Int` (comparison is all the code uses).
* Rust's stable `Vec::sort_by_key` becomes an insertion sort by date
  (`sortByDate`); any stable ascending sort by date computes the same
  list, so this is the unique faithful denotation.
* `Utc::now()` in `pip_anchor_window` becomes an explicit `now` argument.
* Fallible operations (slice indexing that could panic, `Result`-returning
  functions) return `Option`; `none` models the failure.
* The scan loop of `versions_overlapping_window` is written with an
  explicit fuel argument (initialised to the list length, an upper bound
  on the number of iterations) so that it stays structurally recursive
  and executable; exhausting fuel also yields `none`.
-/

/-- A released version of a package: `struct PackageVersion` in main.rs. -/
structure PackageVersion where
  version : String
  date : Int
deriving DecidableEq, Repr

/-- An emitted overlap segment: `struct WindowedVersion` in main.rs. -/
structure WindowedVersion where
  version : String
  overlap_start : Int
  overlap_end : Int
deriving DecidableEq, Repr

/-- Insert `v` into `l` keeping ascending date order, placing `v` after
any element whose date is less than or equal to `v.date` (so equal-date
elements keep their relative order: stability). -/
def insertByDate (v : PackageVersion) : List PackageVersion → List PackageVersion
  | [] => [v]
  | x :: xs => if x.date ≤ v.date then x :: insertByDate v xs else v :: x :: xs

/-- Stable ascending sort by publish date; models
`candidates.sort_by_key(|v| v.date)` in `select_champion`. -/
def sortByDate (l : List PackageVersion) : List PackageVersion :=
  l.foldl (fun acc v => insertByDate v acc) []

/-- `select_champion` in main.rs: stable-sort the candidates ascending by
date and pop the last element. -/
def select_champion (candidates : List PackageVersion) : Option PackageVersion :=
  (sortByDate candidates).getLast?

/-- The pure core of `find_pip` in main.rs (the part after fetching):
keep releases dated at or before the cutoff, then select the champion. -/
def find_pip_core (releases : List PackageVersion) (target_date : Int) :
    Option PackageVersion :=
  select_champion (releases.filter (fun v => decide (v.date ≤ target_date)))

/-- Index of the first element satisfying `p`; models Rust's
`Iterator::position`. -/
def position (p : α → Bool) : List α → Option Nat
  | [] => none
  | a :: as => if p a then some 0 else (position p as).map (· + 1)

/-- Index of the last element satisfying `p`; models Rust's
`Iterator::rposition`. -/
def rposition (p : α → Bool) : List α → Option Nat
  | [] => none
  | a :: as =>
    match rposition p as with
    | some i => some (i + 1)
    | none => if p a then some 0 else none

/-- `pip_anchor_window` in main.rs, with the wall clock passed in as
`now`. Finds the first entry whose version string equals `version`;
returns its date and the date of the next entry by position (or `now`
if it is the last). `none` models the `AnchorNotFound` error (and the
never-taken panic branch of the slice index). The `pkg` argument of the
source only feeds the error message and is dropped. -/
def pip_anchor_window (version : String) (releases : List PackageVersion)
    (now : Int) : Option (Int × Int) :=
  match position (fun v => v.version == version) releases with
  | none => none
  | some idx =>
    match releases[idx]? with
    | none => none
    | some v => some (v.date, ((releases[idx + 1]?).map (·.date)).getD now)

/-- The scan loop of `versions_overlapping_window` in main.rs, from index
`idx`. `fuel` bounds the remaining iterations; `none` models either the
panic branch of `releases[idx]` or fuel exhaustion, both shown unreachable. -/
def vowLoop (releases : List PackageVersion) (window_start window_end : Int) :
    Nat → Nat → Option (List WindowedVersion)
  | _, 0 => none
  | idx, fuel + 1 =>
    match releases[idx]? with
    | none => none
    | some version =>
      let next_date := ((releases[idx + 1]?).map (·.date)).getD window_end
      let overlap_start := max version.date window_start
      let overlap_end := min next_date window_end
      let seg : List WindowedVersion :=
        if overlap_start < overlap_end then
          [⟨version.version, overlap_start, overlap_end⟩]
        else []
      if releases.length ≤ idx + 1 then some seg
      else
        match releases[idx + 1]? with
        | none => none
        | some nxt =>
          if window_end ≤ nxt.date then some seg
          else (vowLoop releases window_start window_end (idx + 1) fuel).map (seg ++ ·)

/-- `versions_overlapping_window` in main.rs: empty result on degenerate
input, otherwise scan from the last release published at or before
`window_start` (or index 0 when there is none). -/
def versions_overlapping_window (releases : List PackageVersion)
    (window_start window_end : Int) : Option (List WindowedVersion) :=
  if releases.isEmpty || decide (window_start ≥ window_end) then some []
  else
    vowLoop releases window_start window_end
      ((rposition (fun v => decide (v.date ≤ window_start)) releases).getD 0)
      releases.length

/-- One step of scanning for the separator `==`: models
`str::split_once("==")` on a list of characters, splitting at the first
occurrence. -/
def split_once_eqeq : List Char → Option (List Char × List Char)
  | [] => none
  | c :: rest =>
    if c = '=' then
      match rest with
      | [] => none
      | c2 :: rest2 =>
        if c2 = '=' then some ([], rest2)
        else (split_once_eqeq rest).map (fun p => (c :: p.1, p.2))
    else (split_once_eqeq rest).map (fun p => (c :: p.1, p.2))

/-- Whether `==` occurs as a contiguous substring. Used only to state the
first-occurrence property of `split_once_eqeq`. -/
def hasEqEq : List Char → Bool
  | [] => false
  | c :: rest => (decide (c = '=') && decide (rest.head? = some '=')) || hasEqEq rest

/-- The Unicode White_Space property, the exact character class stripped
by Rust's `str::trim` (via `char::is_whitespace`): the 25 code points
U+0009..U+000D, U+0020, U+0085, U+00A0, U+1680, U+2000..U+200A, U+2028,
U+2029, U+202F, U+205F and U+3000. -/
def isRustWhitespace (c : Char) : Bool :=
  [0x09, 0x0A, 0x0B, 0x0C, 0x0D, 0x20, 0x85, 0xA0, 0x1680, 0x2000, 0x2001,
    0x2002, 0x2003, 0x2004, 0x2005, 0x2006, 0x2007, 0x2008, 0x2009, 0x200A,
    0x2028, 0x2029, 0x202F, 0x205F, 0x3000].contains c.val.toNat

/-- Strip leading and trailing Unicode whitespace; models `str::trim`. -/
def trim (s : List Char) : List Char :=
  ((s.dropWhile isRustWhitespace).reverse.dropWhile isRustWhitespace).reverse

/-- `parse_pip_spec` in main.rs: split at the first `==`, reject when
either side trims to empty, otherwise return both sides trimmed. `none`
models the `Err` branches. -/
def parse_pip_spec (spec : List Char) : Option (List Char × List Char) :=
  match split_once_eqeq spec with
  | none => none
  | some (name, version) =>
    if trim name = [] ∨ trim version = [] then none
    else some (trim name, trim version)

example : versions_overlapping_window
    [⟨"1.0.0", 0⟩, ⟨"1.1.0", 31⟩, ⟨"2.0.0", 60⟩] 14 45 =
    some [⟨"1.0.0", 14, 31⟩, ⟨"1.1.0", 31, 45⟩] := by decide

example : versions_overlapping_window [⟨"0.1.0", 31⟩] 0 60 =
    some [⟨"0.1.0", 31, 60⟩] := by decide

example : select_champion [⟨"a", 5⟩, ⟨"b", 5⟩, ⟨"c", 3⟩] = some ⟨"b", 5⟩ := by decide

example : parse_pip_spec "requests==2.31.0".toList =
    some ("requests".toList, "2.31.0".toList) := by decide

example : parse_pip_spec "requests".toList = none := by decide

example : parse_pip_spec "==1.0.0".toList = none := by decide

example : parse_pip_spec ('\x0B' :: "==a".toList) = none := by decide

example : trim (' ' :: "x".toList) = ['x'] := by decide

example : pip_anchor_window "b" [⟨"a", 1⟩, ⟨"b", 2⟩] 99 = some (2, 99) := by decide

/-! ### Champion selection: helper lemmas -/

theorem mem_insertByDate (v x : PackageVersion) :
    ∀ l : List PackageVersion, x ∈ insertByDate v l ↔ x = v ∨ x ∈ l := by
  intro l
  induction l with
  | nil => simp [insertByDate]
  | cons a as ih =>
    by_cases h : a.date ≤ v.date
    · simp [insertByDate, h, ih]
      tauto
    · simp [insertByDate, h, ih]

theorem length_insertByDate (v : PackageVersion) :
    ∀ l : List PackageVersion, (insertByDate v l).length = l.length + 1 := by
  intro l
  induction l with
  | nil => simp [insertByDate]
  | cons a as ih =>
    by_cases h : a.date ≤ v.date <;> simp [insertByDate, h, ih]

theorem pairwise_insertByDate (v : PackageVersion) :
    ∀ l : List PackageVersion,
      List.Pairwise (fun a b => a.date ≤ b.date) l →
      List.Pairwise (fun a b => a.date ≤ b.date) (insertByDate v l) := by
  intro l
  induction l with
  | nil => intro _; simp [insertByDate]
  | cons a as ih =>
    intro h
    rw [List.pairwise_cons] at h
    by_cases hc : a.date ≤ v.date
    · simp only [insertByDate, if_pos hc]
      rw [List.pairwise_cons]
      refine ⟨?_, ih h.2⟩
      intro x hx
      rcases (mem_insertByDate v x as).mp hx with hxv | hxas
      · exact hxv ▸ hc
      · exact h.1 x hxas
    · simp only [insertByDate, if_neg hc]
      rw [List.pairwise_cons]
      refine ⟨?_, List.pairwise_cons.mpr h⟩
      intro x hx
      rcases List.mem_cons.mp hx with hxa | hxas
      · subst hxa; omega
      · have := h.1 x hxas; omega

theorem pairwise_foldl_insert :
    ∀ (l acc : List PackageVersion),
      List.Pairwise (fun a b => a.date ≤ b.date) acc →
      List.Pairwise (fun a b => a.date ≤ b.date)
        (List.foldl (fun acc v => insertByDate v acc) acc l) := by
  intro l
  induction l with
  | nil => intro acc h; simpa using h
  | cons v l ih =>
    intro acc h
    exact ih (insertByDate v acc) (pairwise_insertByDate v acc h)

theorem pairwise_sortByDate (l : List PackageVersion) :
    List.Pairwise (fun a b => a.date ≤ b.date) (sortByDate l) :=
  pairwise_foldl_insert l [] List.Pairwise.nil

theorem mem_foldl_insert :
    ∀ (l acc : List PackageVersion) (x : PackageVersion),
      x ∈ List.foldl (fun acc v => insertByDate v acc) acc l ↔ x ∈ acc ∨ x ∈ l := by
  intro l
  induction l with
  | nil => intro acc x; simp
  | cons v l ih =>
    intro acc x
    simp only [List.foldl_cons]
    rw [ih (insertByDate v acc) x, mem_insertByDate]
    simp only [List.mem_cons]
    tauto

theorem mem_sortByDate (l : List PackageVersion) (x : PackageVersion) :
    x ∈ sortByDate l ↔ x ∈ l := by
  unfold sortByDate
  rw [mem_foldl_insert]
  simp

theorem length_foldl_insert :
    ∀ (l acc : List PackageVersion),
      (List.foldl (fun acc v => insertByDate v acc) acc l).length =
        acc.length + l.length := by
  intro l
  induction l with
  | nil => intro acc; simp
  | cons v l ih =>
    intro acc
    simp only [List.foldl_cons]
    rw [ih (insertByDate v acc), length_insertByDate]
    simp only [List.length_cons]
    omega

theorem length_sortByDate (l : List PackageVersion) :
    (sortByDate l).length = l.length := by
  unfold sortByDate
  rw [length_foldl_insert]
  simp

theorem getLast_of_pairwise_max (r : PackageVersion) :
    ∀ l : List PackageVersion,
      List.Pairwise (fun a b => a.date ≤ b.date) l →
      l.getLast? = some r → ∀ x ∈ l, x.date ≤ r.date := by
  intro l
  induction l with
  | nil => intro _ h; simp at h
  | cons a as ih =>
    intro hp hl x hx
    cases as with
    | nil =>
      simp at hl
      rcases List.mem_singleton.mp hx with rfl
      simp [hl]
    | cons b bs =>
      rw [List.getLast?_cons_cons] at hl
      rw [List.pairwise_cons] at hp
      rcases List.mem_cons.mp hx with rfl | hx'
      · exact hp.1 r (List.mem_of_getLast?_eq_some hl)
      · exact ih hp.2 hl x hx'

theorem select_champion_spec (l : List PackageVersion) (r : PackageVersion)
    (h : select_champion l = some r) :
    r ∈ l ∧ ∀ x ∈ l, x.date ≤ r.date := by
  unfold select_champion at h
  constructor
  · exact (mem_sortByDate l r).mp (List.mem_of_getLast?_eq_some h)
  · intro x hx
    exact getLast_of_pairwise_max r (sortByDate l) (pairwise_sortByDate l) h x
      ((mem_sortByDate l x).mpr hx)

theorem select_champion_eq_none_iff (l : List PackageVersion) :
    select_champion l = none ↔ l = [] := by
  unfold select_champion
  rw [List.getLast?_eq_none_iff]
  constructor
  · intro h
    have := length_sortByDate l
    rw [h] at this
    exact List.length_eq_zero.mp this.symm
  · intro h; subst h; rfl

theorem filter_insertByDate_ne (M : Int) (v : PackageVersion) (hv : ¬ v.date = M) :
    ∀ l : List PackageVersion,
      (insertByDate v l).filter (fun x => decide (x.date = M)) =
        l.filter (fun x => decide (x.date = M)) := by
  intro l
  induction l with
  | nil => simp [insertByDate, hv]
  | cons a as ih =>
    by_cases hc : a.date ≤ v.date
    · simp only [insertByDate, if_pos hc, List.filter_cons, ih]
    · simp only [insertByDate, if_neg hc, List.filter_cons, hv, decide_eq_true_eq]
      simp [hv]

theorem filter_insertByDate_eq (M : Int) (v : PackageVersion) (hv : v.date = M) :
    ∀ l : List PackageVersion,
      List.Pairwise (fun a b => a.date ≤ b.date) l →
      (insertByDate v l).filter (fun x => decide (x.date = M)) =
        l.filter (fun x => decide (x.date = M)) ++ [v] := by
  intro l
  induction l with
  | nil => simp [insertByDate, hv]
  | cons a as ih =>
    intro hp
    rw [List.pairwise_cons] at hp
    by_cases hc : a.date ≤ v.date
    · simp only [insertByDate, if_pos hc, List.filter_cons, ih hp.2]
      by_cases ha : a.date = M <;> simp [ha]
    · have hlt : M < a.date := by omega
      have hnil : (a :: as).filter (fun x => decide (x.date = M)) = [] := by
        rw [List.filter_eq_nil_iff]
        intro x hx
        rcases List.mem_cons.mp hx with rfl | hx'
        · simp; omega
        · have := hp.1 x hx'
          simp; omega
      simp only [insertByDate, if_neg hc, List.filter_cons, hnil]
      simp [hv]

theorem filter_foldl_insert (M : Int) :
    ∀ (l acc : List PackageVersion),
      List.Pairwise (fun a b => a.date ≤ b.date) acc →
      (List.foldl (fun acc v => insertByDate v acc) acc l).filter
          (fun x => decide (x.date = M)) =
        acc.filter (fun x => decide (x.date = M)) ++
          l.filter (fun x => decide (x.date = M)) := by
  intro l
  induction l with
  | nil => intro acc _; simp
  | cons v l ih =>
    intro acc hacc
    simp only [List.foldl_cons]
    rw [ih (insertByDate v acc) (pairwise_insertByDate v acc hacc)]
    by_cases hv : v.date = M
    · rw [filter_insertByDate_eq M v hv acc hacc]
      simp [List.filter_cons, hv]
    · rw [filter_insertByDate_ne M v hv acc]
      simp [List.filter_cons, hv]

theorem sorted_filter_getLast (r : PackageVersion) :
    ∀ l : List PackageVersion,
      List.Pairwise (fun a b => a.date ≤ b.date) l →
      l.getLast? = some r →
      (l.filter (fun x => decide (x.date = r.date))).getLast? = some r := by
  intro l
  induction l with
  | nil => intro _ h; simp at h
  | cons a as ih =>
    intro hp hl
    cases as with
    | nil =>
      simp at hl
      subst hl
      simp [List.filter_cons]
    | cons b bs =>
      rw [List.getLast?_cons_cons] at hl
      rw [List.pairwise_cons] at hp
      have ihr := ih hp.2 hl
      have hne : (b :: bs).filter (fun x => decide (x.date = r.date)) ≠ [] := by
        intro hnil
        rw [hnil] at ihr
        simp at ihr
      rw [List.filter_cons]
      by_cases ha : a.date = r.date
      · rw [if_pos (by simp [ha])]
        rcases List.exists_cons_of_ne_nil hne with ⟨y, ys, hys⟩
        rw [hys] at ihr ⊢
        rw [List.getLast?_cons_cons]
        exact ihr
      · rw [if_neg (by simp [ha])]
        exact ihr

/-! ### Claim theorems about champion selection -/

/-- C2: when the champion selection over releases filtered to the cutoff
returns a release, that release is published at or before the cutoff and
no release at or before the cutoff is strictly newer. -/
theorem find_pip_core_champion (rs : List PackageVersion) (c : Int)
    (r : PackageVersion) (h : find_pip_core rs c = some r) :
    r.date ≤ c ∧ ∀ v ∈ rs, v.date ≤ c → v.date ≤ r.date := by
  unfold find_pip_core at h
  have spec := select_champion_spec _ r h
  constructor
  · have := (List.mem_filter.mp spec.1).2
    simpa using this
  · intro v hv hvc
    exact spec.2 v (List.mem_filter.mpr ⟨hv, by simpa using hvc⟩)

theorem find_pip_core_champion_witness :
    (⟨"b", 2⟩ : PackageVersion).date ≤ 5 ∧
      ∀ v ∈ ([⟨"a", 1⟩, ⟨"b", 2⟩, ⟨"c", 9⟩] : List PackageVersion),
        v.date ≤ 5 → v.date ≤ (⟨"b", 2⟩ : PackageVersion).date :=
  find_pip_core_champion [⟨"a", 1⟩, ⟨"b", 2⟩, ⟨"c", 9⟩] 5 ⟨"b", 2⟩ (by decide)

/-- C6: the champion selection returns absent exactly when no release is
published at or before the cutoff (in particular for the empty timeline
and for a cutoff predating every release). -/
theorem find_pip_core_none_iff (rs : List PackageVersion) (c : Int) :
    find_pip_core rs c = none ↔ ∀ v ∈ rs, c < v.date := by
  unfold find_pip_core
  rw [select_champion_eq_none_iff, List.filter_eq_nil_iff]
  constructor
  · intro h v hv
    have := h v hv
    simp at this
    omega
  · intro h v hv
    have := h v hv
    simp
    omega

/-- C7: with ties at the maximal date at or before the cutoff, the
selected release is the last one in original input order among those
sharing the maximal date (stable ascending sort by date, then pop);
version strings play no role. -/
theorem select_champion_tie_last (l : List PackageVersion) (r : PackageVersion)
    (h : select_champion l = some r) :
    (∀ x ∈ l, x.date ≤ r.date) ∧
      (l.filter (fun x => decide (x.date = r.date))).getLast? = some r := by
  refine ⟨(select_champion_spec l r h).2, ?_⟩
  unfold select_champion at h
  have hsf := sorted_filter_getLast r (sortByDate l) (pairwise_sortByDate l) h
  have hfold := filter_foldl_insert r.date l [] List.Pairwise.nil
  unfold sortByDate at hsf
  rw [hfold] at hsf
  simpa using hsf

theorem select_champion_tie_last_witness :
    (∀ x ∈ ([⟨"a", 5⟩, ⟨"b", 5⟩, ⟨"c", 3⟩] : List PackageVersion),
        x.date ≤ (⟨"b", 5⟩ : PackageVersion).date) ∧
      (([⟨"a", 5⟩, ⟨"b", 5⟩, ⟨"c", 3⟩] : List PackageVersion).filter
          (fun x => decide (x.date = (⟨"b", 5⟩ : PackageVersion).date))).getLast? =
        some ⟨"b", 5⟩ :=
  select_champion_tie_last [⟨"a", 5⟩, ⟨"b", 5⟩, ⟨"c", 3⟩] ⟨"b", 5⟩ (by decide)

/-- C9: select_champion needs no pre-sorted input: whatever the order of
the candidate list, a returned release is a member and its date is at
least the date of every list element. -/
theorem select_champion_max_any_order (l : List PackageVersion)
    (r : PackageVersion) (h : select_champion l = some r) :
    r ∈ l ∧ ∀ v ∈ l, v.date ≤ r.date :=
  select_champion_spec l r h

theorem select_champion_max_any_order_witness :
    (⟨"b", 7⟩ : PackageVersion) ∈ ([⟨"b", 7⟩, ⟨"a", 3⟩] : List PackageVersion) ∧
      ∀ v ∈ ([⟨"b", 7⟩, ⟨"a", 3⟩] : List PackageVersion),
        v.date ≤ (⟨"b", 7⟩ : PackageVersion).date :=
  select_champion_max_any_order [⟨"b", 7⟩, ⟨"a", 3⟩] ⟨"b", 7⟩ (by decide)

/-! ### position / rposition: helper lemmas -/

theorem position_eq_some_of (p : α → Bool) :
    ∀ (l : List α) (i : Nat) (h : i < l.length),
      p l[i] = true →
      (∀ j, ∀ hj : j < l.length, j < i → p l[j] = false) →
      position p l = some i := by
  intro l
  induction l with
  | nil => intro i h; simp at h
  | cons a as ih =>
    intro i h hp hbefore
    cases i with
    | zero =>
      simp only [List.getElem_cons_zero] at hp
      simp [position, hp]
    | succ k =>
      have ha : p a = false := by
        have := hbefore 0 (by simp) (by omega)
        simpa using this
      simp only [position, ha, Bool.false_eq_true, if_false]
      have hk : position p as = some k := by
        refine ih k (by simpa using Nat.lt_of_succ_lt_succ h) ?_ ?_
        · simpa using hp
        · intro j hj hji
          have := hbefore (j + 1) (by simpa using Nat.succ_lt_succ hj)
            (Nat.succ_lt_succ hji)
          simpa using this
      rw [hk]
      rfl

theorem position_none_of (p : α → Bool) :
    ∀ l : List α, (∀ x ∈ l, p x = false) → position p l = none := by
  intro l
  induction l with
  | nil => intro _; rfl
  | cons a as ih =>
    intro h
    have ha : p a = false := h a (List.mem_cons_self a as)
    simp only [position, ha, Bool.false_eq_true, if_false]
    rw [ih (fun x hx => h x (List.mem_cons_of_mem a hx))]
    rfl

theorem position_all_false (p : α → Bool) :
    ∀ l : List α, position p l = none → ∀ x ∈ l, p x = false := by
  intro l
  induction l with
  | nil => intro _ x hx; simp at hx
  | cons a as ih =>
    intro h x hx
    by_cases ha : p a = true
    · simp [position, ha] at h
    · rcases List.mem_cons.mp hx with rfl | hx'
      · simpa using ha
      · refine ih ?_ x hx'
        simp only [position, ha, if_false] at h
        cases hpos : position p as
        · rfl
        · rw [hpos] at h; simp at h

theorem position_lt (p : α → Bool) :
    ∀ (l : List α) (i : Nat), position p l = some i → i < l.length := by
  intro l
  induction l with
  | nil => intro i h; simp [position] at h
  | cons a as ih =>
    intro i h
    by_cases ha : p a = true
    · simp [position, ha] at h
      simp only [List.length_cons]
      omega
    · simp only [position, ha, if_false] at h
      cases hpos : position p as with
      | none => rw [hpos] at h; simp at h
      | some k =>
        rw [hpos] at h
        simp at h
        have := ih k hpos
        simp only [List.length_cons]
        omega

theorem rposition_all_false (p : α → Bool) :
    ∀ l : List α, rposition p l = none → ∀ x ∈ l, p x = false := by
  intro l
  induction l with
  | nil => intro _ x hx; simp at hx
  | cons a as ih =>
    intro h x hx
    simp only [rposition] at h
    cases hpos : rposition p as with
    | some k => rw [hpos] at h; simp at h
    | none =>
      rw [hpos] at h
      rcases List.mem_cons.mp hx with rfl | hx'
      · by_cases ha : p x = true
        · rw [if_pos ha] at h; simp at h
        · simpa using ha
      · exact ih hpos x hx'

theorem rposition_spec (p : α → Bool) :
    ∀ (l : List α) (i : Nat), rposition p l = some i →
      i < l.length ∧ ∀ j, ∀ hj : j < l.length, i < j → p l[j] = false := by
  intro l
  induction l with
  | nil => intro i h; simp [rposition] at h
  | cons a as ih =>
    intro i h
    simp only [rposition] at h
    cases hpos : rposition p as with
    | some k =>
      rw [hpos] at h
      simp at h
      rcases (ih k hpos) with ⟨hk, hafter⟩
      subst h
      refine ⟨by simp only [List.length_cons]; omega, ?_⟩
      intro j hj hij
      cases j with
      | zero => omega
      | succ m =>
        have hm : m < as.length := by simpa using Nat.lt_of_succ_lt_succ hj
        have := hafter m hm (by omega)
        simpa using this
    | none =>
      rw [hpos] at h
      by_cases ha : p a = true
      · rw [if_pos ha] at h
        simp at h
        subst h
        refine ⟨by simp, ?_⟩
        intro j hj hij
        cases j with
        | zero => omega
        | succ m =>
          have hm : m < as.length := by simpa using Nat.lt_of_succ_lt_succ hj
          have := rposition_all_false p as hpos as[m] (List.getElem_mem hm)
          simpa using this
      · rw [if_neg ha] at h
        simp at h

/-! ### Claim theorems about the anchor window -/

/-- C3: when entry `idx` is the first timeline entry whose version string
equals the anchor, pip_anchor_window returns that entry's publish date as
start, and as end the publish date of the entry at the next position, or
the clock value `now` when the anchor is the last entry. -/
theorem pip_anchor_window_found (rs : List PackageVersion) (ver : String)
    (now : Int) (idx : Nat) (h : idx < rs.length)
    (hv : rs[idx].version = ver)
    (hfirst : ∀ j, ∀ hj : j < rs.length, j < idx → rs[j].version ≠ ver) :
    pip_anchor_window ver rs now =
      some (rs[idx].date,
        if h2 : idx + 1 < rs.length then rs[idx + 1].date else now) := by
  have hpos : position (fun v => v.version == ver) rs = some idx := by
    refine position_eq_some_of _ rs idx h (by simpa using hv) ?_
    intro j hj hji
    simpa using hfirst j hj hji
  simp only [pip_anchor_window, hpos, List.getElem?_eq_getElem h]
  by_cases h2 : idx + 1 < rs.length
  · rw [List.getElem?_eq_getElem h2, dif_pos h2]
    rfl
  · rw [List.getElem?_eq_none (by omega), dif_neg h2]
    rfl

theorem pip_anchor_window_found_witness :
    pip_anchor_window "a" [⟨"a", 1⟩, ⟨"b", 2⟩] 99 =
      some ((([⟨"a", 1⟩, ⟨"b", 2⟩] : List PackageVersion)[0]).date,
        if h2 : 0 + 1 < ([⟨"a", 1⟩, ⟨"b", 2⟩] : List PackageVersion).length then
          (([⟨"a", 1⟩, ⟨"b", 2⟩] : List PackageVersion)[0 + 1]).date
        else 99) :=
  pip_anchor_window_found [⟨"a", 1⟩, ⟨"b", 2⟩] "a" 99 0 (by decide) (by decide)
    (fun j hj hji => absurd hji (Nat.not_lt_zero j))

/-- C4: pip_anchor_window fails exactly when no timeline entry's version
string equals the requested anchor version (exact, case-sensitive string
equality); for every timeline containing a match it succeeds. -/
theorem pip_anchor_window_none_iff (rs : List PackageVersion) (ver : String)
    (now : Int) :
    pip_anchor_window ver rs now = none ↔ ∀ v ∈ rs, v.version ≠ ver := by
  unfold pip_anchor_window
  constructor
  · intro h v hv
    cases hpos : position (fun v => v.version == ver) rs with
    | none =>
      have := position_all_false _ rs hpos v hv
      simpa using this
    | some idx =>
      have hlt := position_lt _ rs idx hpos
      simp only [hpos, List.getElem?_eq_getElem hlt] at h
      simp at h
  · intro h
    have hpos : position (fun v => v.version == ver) rs = none := by
      refine position_none_of _ rs ?_
      intro x hx
      simpa using h x hx
    rw [hpos]

/-! ### Overlap resolver: degeneracy and totality -/

/-- C5: an empty releases list, or a window with windowStart >= windowEnd,
makes versions_overlapping_window return the empty sequence, not an error. -/
theorem versions_overlapping_window_degenerate (rs : List PackageVersion)
    (ws we : Int) (h : rs = [] ∨ we ≤ ws) :
    versions_overlapping_window rs ws we = some [] := by
  rcases h with h | h
  · subst h
    rfl
  · unfold versions_overlapping_window
    rw [if_pos]
    simp only [Bool.or_eq_true, decide_eq_true_eq]
    right
    omega

theorem versions_overlapping_window_degenerate_witness :
    versions_overlapping_window [⟨"a", 7⟩] 10 10 = some [] :=
  versions_overlapping_window_degenerate [⟨"a", 7⟩] 10 10 (Or.inr (by omega))

theorem vowLoop_isSome (rs : List PackageVersion) (ws we : Int) :
    ∀ (fuel idx : Nat), idx < rs.length → rs.length - idx ≤ fuel →
      (vowLoop rs ws we idx fuel).isSome = true := by
  intro fuel
  induction fuel with
  | zero => intro idx hidx hfuel; omega
  | succ fuel ih =>
    intro idx hidx hfuel
    by_cases hlen : rs.length ≤ idx + 1
    · simp only [vowLoop, List.getElem?_eq_getElem hidx, if_pos hlen]
      rfl
    · have h2 : idx + 1 < rs.length := by omega
      by_cases hwe : we ≤ rs[idx + 1].date
      · simp only [vowLoop, List.getElem?_eq_getElem hidx,
          List.getElem?_eq_getElem h2, if_neg hlen, if_pos hwe]
        rfl
      · simp only [vowLoop, List.getElem?_eq_getElem hidx,
          List.getElem?_eq_getElem h2, if_neg hlen, if_neg hwe, Option.isSome_map']
        exact ih (idx + 1) (by omega) (by omega)

theorem rposition_lt (p : α → Bool) :
    ∀ (l : List α) (i : Nat), rposition p l = some i → i < l.length := by
  intro l i h
  exact (rposition_spec p l i h).1

/-- C8: versions_overlapping_window is total on every input: the scan
always terminates within `length` iterations and never takes the
out-of-bounds / fuel-exhaustion `none` branch. -/
theorem versions_overlapping_window_total (rs : List PackageVersion)
    (ws we : Int) :
    (versions_overlapping_window rs ws we).isSome = true := by
  unfold versions_overlapping_window
  by_cases hguard : (rs.isEmpty || decide (ws ≥ we)) = true
  · rw [if_pos hguard]
    rfl
  · rw [if_neg hguard]
    have hne : rs ≠ [] := by
      intro hnil
      apply hguard
      simp [hnil]
    have hlen : 0 < rs.length := List.length_pos.mpr hne
    have hidx : (rposition (fun v => decide (v.date ≤ ws)) rs).getD 0 < rs.length := by
      cases hr : rposition (fun v => decide (v.date ≤ ws)) rs with
      | none => simpa using hlen
      | some i => simpa using rposition_lt _ rs i hr
    exact vowLoop_isSome rs ws we rs.length _ hidx (by omega)

/-! ### Overlap resolver: partition invariants -/

theorem pairwise_date_adjacent (rs : List PackageVersion)
    (hsort : List.Pairwise (fun a b => a.date ≤ b.date) rs) (i : Nat)
    (h : i + 1 < rs.length) : rs[i].date ≤ rs[i + 1].date :=
  List.pairwise_iff_getElem.mp hsort i (i + 1) (by omega) h (by omega)

theorem vowLoop_ne_nil (rs : List PackageVersion) (ws we : Int)
    (hsort : List.Pairwise (fun a b => a.date ≤ b.date) rs) :
    ∀ (fuel idx : Nat) (segs : List WindowedVersion) (hidx : idx < rs.length),
      ws < rs[idx].date → rs[idx].date < we →
      vowLoop rs ws we idx fuel = some segs → segs ≠ [] := by
  intro fuel
  induction fuel with
  | zero => intro idx segs hidx _ _ h; simp [vowLoop] at h
  | succ fuel ih =>
    intro idx segs hidx hw1 hw2 h
    by_cases hlen : rs.length ≤ idx + 1
    · simp only [vowLoop, List.getElem?_eq_getElem hidx, if_pos hlen,
        List.getElem?_eq_none hlen, Option.map_none', Option.getD_none,
        min_self] at h
      rw [max_eq_left (le_of_lt hw1), if_pos hw2] at h
      simp only [Option.some.injEq] at h
      subst h
      simp
    · have h2 : idx + 1 < rs.length := by omega
      by_cases hwe : we ≤ rs[idx + 1].date
      · simp only [vowLoop, List.getElem?_eq_getElem hidx,
          List.getElem?_eq_getElem h2, if_neg hlen, if_pos hwe,
          Option.map_some', Option.getD_some] at h
        rw [min_eq_right hwe, max_eq_left (le_of_lt hw1), if_pos hw2] at h
        simp only [Option.some.injEq] at h
        subst h
        simp
      · simp only [vowLoop, List.getElem?_eq_getElem hidx,
          List.getElem?_eq_getElem h2, if_neg hlen, if_neg hwe,
          Option.map_some', Option.getD_some] at h
        rcases Option.map_eq_some'.mp h with ⟨segs', hs', rfl⟩
        have hd : rs[idx].date ≤ rs[idx + 1].date :=
          pairwise_date_adjacent rs hsort idx h2
        have hne' := ih (idx + 1) segs' h2 (by omega) (by omega) hs'
        intro hnil
        exact hne' (List.append_eq_nil.mp hnil).2

theorem vowLoop_invariant (rs : List PackageVersion) (ws we : Int)
    (hsort : List.Pairwise (fun a b => a.date ≤ b.date) rs) :
    ∀ (fuel idx : Nat) (segs : List WindowedVersion) (hidx : idx < rs.length),
      (∀ k, ∀ hk : k < rs.length, idx < k → ws < rs[k].date) →
      vowLoop rs ws we idx fuel = some segs →
      (∀ s ∈ segs,
          ws ≤ s.overlap_start ∧ s.overlap_start < s.overlap_end ∧
            s.overlap_end ≤ we) ∧
        List.Chain' (fun a b => a.overlap_end = b.overlap_start) segs ∧
        (∀ s, segs.head? = some s → s.overlap_start = max rs[idx].date ws) ∧
        (∀ s, segs.getLast? = some s → s.overlap_end = we) := by
  intro fuel
  induction fuel with
  | zero => intro idx segs hidx hws h; simp [vowLoop] at h
  | succ fuel ih =>
    intro idx segs hidx hws h
    by_cases hlen : rs.length ≤ idx + 1
    · simp only [vowLoop, List.getElem?_eq_getElem hidx, if_pos hlen,
        List.getElem?_eq_none hlen, Option.map_none', Option.getD_none,
        min_self] at h
      by_cases hpos : max rs[idx].date ws < we
      · rw [if_pos hpos] at h
        simp only [Option.some.injEq] at h
        subst h
        refine ⟨?_, by simp, ?_, ?_⟩
        · intro s hs
          simp only [List.mem_singleton] at hs
          subst hs
          exact ⟨le_max_right _ _, hpos, le_refl _⟩
        · intro s hs
          simp only [List.head?_cons, Option.some.injEq] at hs
          subst hs
          rfl
        · intro s hs
          simp only [List.getLast?_singleton, Option.some.injEq] at hs
          subst hs
          rfl
      · rw [if_neg hpos] at h
        simp only [Option.some.injEq] at h
        subst h
        exact ⟨by simp, by simp, by simp, by simp⟩
    · have h2 : idx + 1 < rs.length := by omega
      by_cases hwe : we ≤ rs[idx + 1].date
      · simp only [vowLoop, List.getElem?_eq_getElem hidx,
          List.getElem?_eq_getElem h2, if_neg hlen, if_pos hwe,
          Option.map_some', Option.getD_some] at h
        rw [min_eq_right hwe] at h
        by_cases hpos : max rs[idx].date ws < we
        · rw [if_pos hpos] at h
          simp only [Option.some.injEq] at h
          subst h
          refine ⟨?_, by simp, ?_, ?_⟩
          · intro s hs
            simp only [List.mem_singleton] at hs
            subst hs
            exact ⟨le_max_right _ _, hpos, le_refl _⟩
          · intro s hs
            simp only [List.head?_cons, Option.some.injEq] at hs
            subst hs
            rfl
          · intro s hs
            simp only [List.getLast?_singleton, Option.some.injEq] at hs
            subst hs
            rfl
        · rw [if_neg hpos] at h
          simp only [Option.some.injEq] at h
          subst h
          exact ⟨by simp, by simp, by simp, by simp⟩
      · simp only [vowLoop, List.getElem?_eq_getElem hidx,
          List.getElem?_eq_getElem h2, if_neg hlen, if_neg hwe,
          Option.map_some', Option.getD_some] at h
        have hd'we : rs[idx + 1].date < we := by omega
        rw [min_eq_left (le_of_lt hd'we)] at h
        have hwsd' : ws < rs[idx + 1].date := hws (idx + 1) h2 (by omega)
        rcases Option.map_eq_some'.mp h with ⟨segs', hs', rfl⟩
        have ihr := ih (idx + 1) segs' h2 (fun k hk hik => hws k hk (by omega)) hs'
        have hne' := vowLoop_ne_nil rs ws we hsort fuel (idx + 1) segs' h2
          hwsd' hd'we hs'
        rcases List.exists_cons_of_ne_nil hne' with ⟨y, ys, rfl⟩
        have hy : y.overlap_start = rs[idx + 1].date := by
          have := ihr.2.2.1 y rfl
          rw [this, max_eq_left (le_of_lt hwsd')]
        by_cases hpos : max rs[idx].date ws < rs[idx + 1].date
        · rw [if_pos hpos] at h ⊢
          simp only [List.singleton_append]
          refine ⟨?_, ?_, ?_, ?_⟩
          · intro s hs
            rcases List.mem_cons.mp hs with rfl | hs'
            · exact ⟨le_max_right _ _, hpos, le_of_lt hd'we⟩
            · exact ihr.1 s hs'
          · rw [List.chain'_cons]
            exact ⟨hy.symm, ihr.2.1⟩
          · intro s hs
            simp only [List.head?_cons, Option.some.injEq] at hs
            subst hs
            rfl
          · intro s hs
            rw [List.getLast?_cons_cons] at hs
            exact ihr.2.2.2 s hs
        · rw [if_neg hpos] at h ⊢
          simp only [List.nil_append]
          have hdle : rs[idx].date ≤ rs[idx + 1].date :=
            pairwise_date_adjacent rs hsort idx h2
          have hd'le : rs[idx + 1].date ≤ max rs[idx].date ws := by omega
          have hmax : max rs[idx].date ws = rs[idx].date := by
            rcases max_choice rs[idx].date ws with hm | hm
            · exact hm
            · omega
          have hdd' : rs[idx].date = rs[idx + 1].date := by omega
          refine ⟨ihr.1, ihr.2.1, ?_, ihr.2.2.2⟩
          · intro s hs
            simp only [List.head?_cons, Option.some.injEq] at hs
            subst hs
            rw [hy, hmax, hdd']

theorem chain_head_le :
    ∀ (segs : List WindowedVersion) (s : WindowedVersion),
      List.Chain' (fun a b => a.overlap_end = b.overlap_start) segs →
      (∀ x ∈ segs, x.overlap_start < x.overlap_end) →
      segs.head? = some s →
      ∀ b ∈ segs, s.overlap_start ≤ b.overlap_start := by
  intro segs
  induction segs with
  | nil => intro s _ _ hh; simp at hh
  | cons a t ih =>
    intro s hc hpos hh b hb
    simp only [List.head?_cons, Option.some.injEq] at hh
    subst hh
    rcases List.mem_cons.mp hb with rfl | hb'
    · exact le_refl _
    · rcases List.exists_cons_of_ne_nil (List.ne_nil_of_mem hb') with ⟨y, ys, rfl⟩
      rw [List.chain'_cons] at hc
      have hy := ih y hc.2 (fun x hx => hpos x (List.mem_cons_of_mem a hx)) rfl b hb'
      have ha := hpos a (List.mem_cons_self a _)
      have h1 := hc.1
      omega

theorem chain_pairwise_start :
    ∀ segs : List WindowedVersion,
      List.Chain' (fun a b => a.overlap_end = b.overlap_start) segs →
      (∀ x ∈ segs, x.overlap_start < x.overlap_end) →
      List.Pairwise (fun a b => a.overlap_start < b.overlap_start) segs := by
  intro segs
  induction segs with
  | nil => intro _ _; simp
  | cons a t ih =>
    intro hc hpos
    rw [List.pairwise_cons]
    constructor
    · intro b hb
      rcases List.exists_cons_of_ne_nil (List.ne_nil_of_mem hb) with ⟨y, ys, rfl⟩
      rw [List.chain'_cons] at hc
      have hy := chain_head_le (y :: ys) y hc.2
        (fun x hx => hpos x (List.mem_cons_of_mem a hx)) rfl b hb
      have ha := hpos a (List.mem_cons_self a _)
      have h1 := hc.1
      omega
    · exact ih (List.Chain'.tail hc) (fun x hx => hpos x (List.mem_cons_of_mem a hx))

/-- C1: on a timeline sorted ascending by publish date, the emitted
segments are strictly ascending by overlap start, each has positive
width, consecutive segments are gap-free and non-overlapping (each
segment's end equals the next segment's start), and when any segment is
emitted the last one ends exactly at windowEnd — a partition of the
window except for a possible unattributed leading gap. -/
theorem versions_overlapping_window_partition (rs : List PackageVersion)
    (ws we : Int) (segs : List WindowedVersion)
    (hsort : List.Pairwise (fun a b => a.date ≤ b.date) rs)
    (h : versions_overlapping_window rs ws we = some segs) :
    List.Pairwise (fun a b => a.overlap_start < b.overlap_start) segs ∧
      (∀ s ∈ segs, s.overlap_start < s.overlap_end) ∧
      List.Chain' (fun a b => a.overlap_end = b.overlap_start) segs ∧
      (∀ s, segs.getLast? = some s → s.overlap_end = we) := by
  unfold versions_overlapping_window at h
  by_cases hguard : (rs.isEmpty || decide (ws ≥ we)) = true
  · rw [if_pos hguard] at h
    simp only [Option.some.injEq] at h
    subst h
    exact ⟨by simp, by simp, by simp, by simp⟩
  · rw [if_neg hguard] at h
    simp only [Bool.or_eq_true, not_or, Bool.not_eq_true,
      List.isEmpty_eq_false, decide_eq_false_iff_not, not_le] at hguard
    have hne : rs ≠ [] := hguard.1
    have hlenpos : 0 < rs.length := List.length_pos.mpr hne
    have main :
        ∀ idx, ∀ hidx : idx < rs.length,
          (∀ k, ∀ hk : k < rs.length, idx < k → ws < rs[k].date) →
          vowLoop rs ws we idx rs.length = some segs →
          List.Pairwise (fun a b => a.overlap_start < b.overlap_start) segs ∧
            (∀ s ∈ segs, s.overlap_start < s.overlap_end) ∧
            List.Chain' (fun a b => a.overlap_end = b.overlap_start) segs ∧
            (∀ s, segs.getLast? = some s → s.overlap_end = we) := by
      intro idx hidx hws hloop
      have hinv := vowLoop_invariant rs ws we hsort rs.length idx segs hidx hws hloop
      have hposall : ∀ s ∈ segs, s.overlap_start < s.overlap_end :=
        fun s hs => (hinv.1 s hs).2.1
      exact ⟨chain_pairwise_start segs hinv.2.1 hposall, hposall, hinv.2.1,
        hinv.2.2.2⟩
    cases hr : rposition (fun v => decide (v.date ≤ ws)) rs with
    | none =>
      rw [hr] at h
      simp only [Option.getD_none] at h
      refine main 0 hlenpos ?_ h
      intro k hk _
      have := rposition_all_false _ rs hr rs[k] (List.getElem_mem hk)
      simp only [decide_eq_false_iff_not, not_le] at this
      exact this
    | some i =>
      rw [hr] at h
      simp only [Option.getD_some] at h
      rcases rposition_spec _ rs i hr with ⟨hi, hafter⟩
      refine main i hi ?_ h
      intro k hk hik
      have := hafter k hk hik
      simp only [decide_eq_false_iff_not, not_le] at this
      exact this

theorem versions_overlapping_window_partition_witness :
    List.Pairwise (fun a b => a.overlap_start < b.overlap_start)
        ([⟨"1.0.0", 14, 31⟩, ⟨"1.1.0", 31, 45⟩] : List WindowedVersion) ∧
      (∀ s ∈ ([⟨"1.0.0", 14, 31⟩, ⟨"1.1.0", 31, 45⟩] : List WindowedVersion),
        s.overlap_start < s.overlap_end) ∧
      List.Chain' (fun a b => a.overlap_end = b.overlap_start)
        ([⟨"1.0.0", 14, 31⟩, ⟨"1.1.0", 31, 45⟩] : List WindowedVersion) ∧
      (∀ s,
        ([⟨"1.0.0", 14, 31⟩, ⟨"1.1.0", 31, 45⟩] : List WindowedVersion).getLast? =
            some s →
          s.overlap_end = 45) :=
  versions_overlapping_window_partition
    [⟨"1.0.0", 0⟩, ⟨"1.1.0", 31⟩, ⟨"2.0.0", 60⟩] 14 45
    [⟨"1.0.0", 14, 31⟩, ⟨"1.1.0", 31, 45⟩] (by decide) (by decide)

/-! ### Anchor-spec parsing -/

theorem hasEqEq_cons (c : Char) (l : List Char) :
    hasEqEq (c :: l) =
      ((decide (c = '=') && decide (l.head? = some '=')) || hasEqEq l) := rfl

theorem split_once_eqeq_iff :
    ∀ (s a b : List Char),
      split_once_eqeq s = some (a, b) ↔
        s = a ++ '=' :: '=' :: b ∧ hasEqEq (a ++ ['=']) = false := by
  intro s
  induction s with
  | nil =>
    intro a b
    constructor
    · intro h; simp [split_once_eqeq] at h
    · rintro ⟨h1, _⟩
      exfalso
      cases a <;> simp at h1
  | cons c rest ih =>
    intro a b
    by_cases hc : c = '='
    · subst hc
      cases rest with
      | nil =>
        constructor
        · intro h; simp [split_once_eqeq] at h
        · rintro ⟨h1, _⟩
          exfalso
          have hlen := congrArg List.length h1
          simp at hlen
          omega
      | cons c2 rest2 =>
        by_cases hc2 : c2 = '='
        · subst hc2
          simp only [split_once_eqeq, if_pos rfl]
          constructor
          · intro h
            simp only [Option.some.injEq, Prod.mk.injEq] at h
            rcases h with ⟨rfl, rfl⟩
            exact ⟨rfl, by decide⟩
          · rintro ⟨h1, h2⟩
            cases a with
            | nil =>
              simp only [List.nil_append, List.cons.injEq] at h1
              simp [h1.2.2]
            | cons x a' =>
              exfalso
              simp only [List.cons_append, List.cons.injEq] at h1
              rcases h1 with ⟨rfl, h1'⟩
              cases a' with
              | nil => simp [hasEqEq] at h2
              | cons y a'' =>
                simp only [List.cons_append, List.cons.injEq] at h1'
                rcases h1' with ⟨rfl, _⟩
                simp [hasEqEq] at h2
        · have hsplit :
              split_once_eqeq ('=' :: c2 :: rest2) =
                (split_once_eqeq (c2 :: rest2)).map
                  (fun p => ('=' :: p.1, p.2)) := by
            simp [split_once_eqeq, hc2]
          rw [hsplit]
          constructor
          · intro h
            rcases Option.map_eq_some'.mp h with ⟨⟨a', b'⟩, hp, hpe⟩
            simp only [Prod.mk.injEq] at hpe
            rcases hpe with ⟨rfl, rfl⟩
            rcases (ih a' b').mp hp with ⟨hrest, heq⟩
            refine ⟨by rw [List.cons_append, hrest], ?_⟩
            rw [List.cons_append, hasEqEq_cons, heq]
            have hhead : decide ((a' ++ ['=']).head? = some '=') = false := by
              cases a' with
              | nil =>
                exfalso
                simp only [List.nil_append, List.cons.injEq] at hrest
                exact hc2 hrest.1
              | cons y a'' =>
                simp only [List.cons_append, List.cons.injEq] at hrest
                rcases hrest with ⟨rfl, _⟩
                simp [hc2]
            rw [hhead]
            rfl
          · rintro ⟨h1, h2⟩
            cases a with
            | nil =>
              exfalso
              simp only [List.nil_append, List.cons.injEq] at h1
              exact hc2 h1.2.1
            | cons x a' =>
              simp only [List.cons_append, List.cons.injEq] at h1
              rcases h1 with ⟨rfl, h1'⟩
              rw [List.cons_append, hasEqEq_cons, Bool.or_eq_false_iff] at h2
              refine Option.map_eq_some'.mpr ⟨(a', b), ?_, rfl⟩
              exact (ih a' b).mpr ⟨h1', h2.2⟩
    · have hsplit :
          split_once_eqeq (c :: rest) =
            (split_once_eqeq rest).map (fun p => (c :: p.1, p.2)) := by
        simp only [split_once_eqeq, if_neg hc]
      rw [hsplit]
      constructor
      · intro h
        rcases Option.map_eq_some'.mp h with ⟨⟨a', b'⟩, hp, hpe⟩
        simp only [Prod.mk.injEq] at hpe
        rcases hpe with ⟨rfl, rfl⟩
        rcases (ih a' b').mp hp with ⟨hrest, heq⟩
        refine ⟨by rw [List.cons_append, hrest], ?_⟩
        rw [List.cons_append, hasEqEq_cons, heq]
        simp [hc]
      · rintro ⟨h1, h2⟩
        cases a with
        | nil =>
          exfalso
          simp only [List.nil_append, List.cons.injEq] at h1
          exact hc h1.1
        | cons x a' =>
          simp only [List.cons_append, List.cons.injEq] at h1
          rcases h1 with ⟨rfl, h1'⟩
          rw [List.cons_append, hasEqEq_cons, Bool.or_eq_false_iff] at h2
          refine Option.map_eq_some'.mpr ⟨(a', b), ?_, rfl⟩
          exact (ih a' b).mpr ⟨h1', h2.2⟩

example : split_once_eqeq "a===b".toList = some ("a".toList, "=b".toList) := by decide

example : split_once_eqeq "a==b==c".toList = some ("a".toList, "b==c".toList) := by decide

/-- C10: parse_pip_spec succeeds exactly when the input splits at the
first occurrence of the separator `==` into two parts that are both
non-empty after trimming whitespace, and then returns exactly those two
trimmed parts; in every other case it returns an error. -/
theorem parse_pip_spec_iff (s n v : List Char) :
    parse_pip_spec s = some (n, v) ↔
      ∃ a b, s = a ++ '=' :: '=' :: b ∧ hasEqEq (a ++ ['=']) = false ∧
        trim a ≠ [] ∧ trim b ≠ [] ∧ n = trim a ∧ v = trim b := by
  cases hsp : split_once_eqeq s with
  | none =>
    have hred : parse_pip_spec s = none := by
      unfold parse_pip_spec
      rw [hsp]
    rw [hred]
    constructor
    · intro h; cases h
    · rintro ⟨a, b, h1, h2, _, _, _, _⟩
      have := (split_once_eqeq_iff s a b).mpr ⟨h1, h2⟩
      rw [hsp] at this
      cases this
  | some p =>
    rcases p with ⟨na, ver⟩
    have hred : parse_pip_spec s =
        if trim na = [] ∨ trim ver = [] then none
        else some (trim na, trim ver) := by
      unfold parse_pip_spec
      rw [hsp]
    rw [hred]
    have hdec := (split_once_eqeq_iff s na ver).mp hsp
    constructor
    · intro h
      by_cases hif : trim na = [] ∨ trim ver = []
      · rw [if_pos hif] at h
        cases h
      · rw [if_neg hif] at h
        simp only [Option.some.injEq, Prod.mk.injEq] at h
        push_neg at hif
        exact ⟨na, ver, hdec.1, hdec.2, hif.1, hif.2, h.1.symm, h.2.symm⟩
    · rintro ⟨a, b, h1, h2, h3, h4, rfl, rfl⟩
      have huniq := (split_once_eqeq_iff s a b).mpr ⟨h1, h2⟩
      rw [hsp] at huniq
      simp only [Option.some.injEq, Prod.mk.injEq] at huniq
      rcases huniq with ⟨rfl, rfl⟩
      rw [if_neg (by tauto)]
